import Mathlib

/-
Verification of the mindmapgen pipeline (outline parser, text shaper,
layout engine, theme store) against its natural-language specification.

Shallow embedding conventions:
  * Go strings are modelled as `List Char` (Go iterates strings by rune).
  * Go `float64` arithmetic is modelled over `ℚ`; the layout and text
    shaping code uses only +, -, *, /2 and comparisons, so rational
    arithmetic captures the intended (exact) semantics of the code.
  * Font measurement (`gg.Context.MeasureString`) is an external
    collaborator; it is abstracted as a parameter `measure : List Char → ℚ`.
  * `unicode.Is(unicode.Han, r)` and `unicode.IsSpace(r)` are modelled
    from Go's Unicode tables (`goIsHan`, `goIsSpace`).
-/

/-- Model of Go `unicode.IsSpace` (White_Space property), from the Go
Unicode tables. -/
def goIsSpace (c : Char) : Bool :=
  let n := c.toNat
  n == 9 || n == 10 || n == 11 || n == 12 || n == 13 || n == 32 ||
  n == 0x85 || n == 0xA0 || n == 0x1680 ||
  (0x2000 ≤ n && n ≤ 0x200A) || n == 0x2028 || n == 0x2029 ||
  n == 0x202F || n == 0x205F || n == 0x3000

/-- Model of Go `unicode.Is(unicode.Han, r)`: the Han script ranges from
the Go Unicode tables (CJK ideographs, radicals and compatibility
ideographs). -/
def goIsHan (c : Char) : Bool :=
  let n := c.toNat
  (0x2E80 ≤ n && n ≤ 0x2E99) || (0x2E9B ≤ n && n ≤ 0x2EF3) ||
  (0x2F00 ≤ n && n ≤ 0x2FD5) || n == 0x3005 || n == 0x3007 ||
  (0x3021 ≤ n && n ≤ 0x3029) || (0x3038 ≤ n && n ≤ 0x303B) ||
  (0x3400 ≤ n && n ≤ 0x4DBF) || (0x4E00 ≤ n && n ≤ 0x9FFF) ||
  (0xF900 ≤ n && n ≤ 0xFA6D) || (0xFA70 ≤ n && n ≤ 0xFAD9) ||
  (0x20000 ≤ n && n ≤ 0x2A6DF) || (0x2A700 ≤ n && n ≤ 0x2B739) ||
  (0x2B740 ≤ n && n ≤ 0x2B81D) || (0x2B820 ≤ n && n ≤ 0x2CEA1) ||
  (0x2CEB0 ≤ n && n ≤ 0x2EBE0) || (0x2EBF0 ≤ n && n ≤ 0x2EE5D) ||
  (0x2F800 ≤ n && n ≤ 0x2FA1D) || (0x30000 ≤ n && n ≤ 0x3134A) ||
  (0x31350 ≤ n && n ≤ 0x323AF)

/-- Loop body of `splitIntoWords` (drawer.go): the Go loop carries the
accumulated word list, the current word under construction and the
`inChineseSequence` flag. -/
def splitIntoWordsAux : List Char → List (List Char) → List Char → Bool → List (List Char)
  | [], acc, cur, _ => if cur.isEmpty then acc else acc ++ [cur]
  | r :: rest, acc, cur, inSeq =>
    if goIsSpace r then
      splitIntoWordsAux rest (if cur.isEmpty then acc else acc ++ [cur]) [] false
    else if goIsHan r then
      if !inSeq && !cur.isEmpty then
        splitIntoWordsAux rest (acc ++ [cur]) [r] true
      else
        splitIntoWordsAux rest acc (cur ++ [r]) true
    else
      if inSeq && !cur.isEmpty then
        splitIntoWordsAux rest (acc ++ [cur]) [r] false
      else
        splitIntoWordsAux rest acc (cur ++ [r]) false

/-- Model of `splitIntoWords` (drawer.go): splits a label into words,
breaking at spaces and at transitions between Han and non-Han runs. -/
def splitIntoWords (text : List Char) : List (List Char) :=
  splitIntoWordsAux text [] [] false

/-- Continuation predicate for a word: the next character extends the
current word exactly when it is not a space and has the same Han-ness
as the class `h` of the word built so far. -/
def contClass (h : Bool) (d : Char) : Bool :=
  !goIsSpace d && (goIsHan d == h)

/-- Specification-level segmentation, written from the spec sentence: a
word is a maximal run of non-space characters further cut at every
transition into or out of a contiguous run of Han ideographs; a maximal
Han run stays one word. -/
def wordsSpec : List Char → List (List Char)
  | [] => []
  | c :: cs =>
    if goIsSpace c then wordsSpec cs
    else (c :: cs.takeWhile (contClass (goIsHan c))) ::
      wordsSpec (cs.dropWhile (contClass (goIsHan c)))
termination_by t => t.length
decreasing_by
  · simp
  · exact Nat.lt_succ_of_le (List.dropWhile_sublist _).length_le

/-- The Go loop with the accumulator factored out. -/
def wordsFrom (cur : List Char) (inSeq : Bool) : List Char → List (List Char)
  | [] => if cur.isEmpty then [] else [cur]
  | r :: rest =>
    if goIsSpace r then
      (if cur.isEmpty then [] else [cur]) ++ wordsFrom [] false rest
    else if goIsHan r then
      if !inSeq && !cur.isEmpty then cur :: wordsFrom [r] true rest
      else wordsFrom (cur ++ [r]) true rest
    else
      if inSeq && !cur.isEmpty then cur :: wordsFrom [r] false rest
      else wordsFrom (cur ++ [r]) false rest

set_option maxHeartbeats 1000000 in
theorem wordsSpec_nil : wordsSpec [] = [] := by
  rw [wordsSpec.eq_def]

theorem wordsSpec_cons_space (c : Char) (cs : List Char) (h : goIsSpace c = true) :
    wordsSpec (c :: cs) = wordsSpec cs := by
  rw [wordsSpec.eq_def]
  simp [h]

theorem wordsSpec_cons_word (c : Char) (cs : List Char) (h : goIsSpace c = false) :
    wordsSpec (c :: cs) =
      (c :: cs.takeWhile (contClass (goIsHan c))) ::
        wordsSpec (cs.dropWhile (contClass (goIsHan c))) := by
  rw [wordsSpec.eq_def]
  simp [h]

theorem splitIntoWordsAux_eq_wordsFrom (text : List Char) :
    ∀ acc cur inSeq,
      splitIntoWordsAux text acc cur inSeq = acc ++ wordsFrom cur inSeq text := by
  induction text with
  | nil =>
    intro acc cur inSeq
    cases h : cur.isEmpty <;> simp [splitIntoWordsAux, wordsFrom, h]
  | cons r rest ih =>
    intro acc cur inSeq
    simp only [splitIntoWordsAux, wordsFrom]
    cases hs : goIsSpace r
    · cases hh : goIsHan r
      · cases hseq : inSeq <;> cases hc : cur.isEmpty <;>
          simp [hs, hh, hseq, hc, ih]
      · cases hseq : inSeq <;> cases hc : cur.isEmpty <;>
          simp [hs, hh, hseq, hc, ih]
    · cases hc : cur.isEmpty <;> simp [hs, hc, ih]

theorem wordsFrom_spec (text : List Char) :
    (wordsFrom [] false text = wordsSpec text) ∧
    (∀ cur h, cur ≠ [] →
      wordsFrom cur h text =
        (cur ++ text.takeWhile (contClass h)) ::
          wordsSpec (text.dropWhile (contClass h))) := by
  induction text with
  | nil =>
    refine ⟨by simp [wordsFrom, wordsSpec_nil], ?_⟩
    intro cur h hne
    simp [wordsFrom, wordsSpec_nil, List.isEmpty_iff, hne]
  | cons c cs ih =>
    constructor
    · cases hs : goIsSpace c
      · rw [wordsSpec_cons_word c cs hs]
        cases hh : goIsHan c
        · simp only [wordsFrom, hs, hh, Bool.not_false, List.isEmpty_nil,
            Bool.not_true, Bool.false_and, Bool.and_false, if_false,
            Bool.false_eq_true, List.nil_append]
          rw [ih.2 [c] false (by simp)]
          simp
        · simp only [wordsFrom, hs, hh, Bool.not_false, List.isEmpty_nil,
            Bool.not_true, Bool.and_false, if_false, Bool.false_eq_true,
            if_true, List.nil_append]
          rw [ih.2 [c] true (by simp)]
          simp
      · rw [wordsSpec_cons_space c cs hs]
        simp only [wordsFrom, hs, if_true, List.isEmpty_nil, List.nil_append]
        exact ih.1
    · intro cur h hne
      have hcur : cur.isEmpty = false := by simp [List.isEmpty_iff, hne]
      cases hs : goIsSpace c
      · cases hh : goIsHan c <;> cases hb : h
        · -- non-Han character, non-Han current word: extend
          have hcc : contClass false c = true := by simp [contClass, hs, hh]
          simp only [wordsFrom, hs, hh, hcur, Bool.false_eq_true, if_false,
            Bool.not_false, Bool.and_false, Bool.false_and]
          rw [ih.2 (cur ++ [c]) false (by simp),
            List.takeWhile_cons_of_pos hcc, List.dropWhile_cons_of_pos hcc]
          simp
        · -- non-Han character, Han current word: flush, start new word
          have hcc : contClass true c = false := by simp [contClass, hs, hh]
          simp only [wordsFrom, hs, hh, hcur, Bool.false_eq_true, if_false,
            Bool.not_false, Bool.true_and, if_true]
          rw [ih.2 [c] false (by simp),
            List.takeWhile_cons_of_neg (by simp [hcc]),
            List.dropWhile_cons_of_neg (by simp [hcc]),
            wordsSpec_cons_word c cs hs, hh]
          simp
        · -- Han character, non-Han current word: flush, start new word
          have hcc : contClass false c = false := by simp [contClass, hs, hh]
          simp only [wordsFrom, hs, hh, hcur, Bool.false_eq_true, if_false,
            Bool.not_false, Bool.true_and, if_true]
          rw [ih.2 [c] true (by simp),
            List.takeWhile_cons_of_neg (by simp [hcc]),
            List.dropWhile_cons_of_neg (by simp [hcc]),
            wordsSpec_cons_word c cs hs, hh]
          simp
        · -- Han character, Han current word: extend
          have hcc : contClass true c = true := by simp [contClass, hs, hh]
          simp only [wordsFrom, hs, hh, hcur, if_false, Bool.not_true,
            Bool.false_and, if_true]
          rw [ih.2 (cur ++ [c]) true (by simp),
            List.takeWhile_cons_of_pos hcc, List.dropWhile_cons_of_pos hcc]
          simp
      · -- space character: flush the current word
        have hcc : contClass h c = false := by simp [contClass, hs]
        simp only [wordsFrom, hs, hcur, if_true, Bool.false_eq_true, if_false]
        rw [ih.1, List.takeWhile_cons_of_neg (by simp [hcc]),
          List.dropWhile_cons_of_neg (by simp [hcc]),
          wordsSpec_cons_space c cs hs]
        simp

/-- The word splitter computes exactly the run-based segmentation. -/
theorem splitIntoWords_eq_wordsSpec (text : List Char) :
    splitIntoWords text = wordsSpec text := by
  rw [splitIntoWords, splitIntoWordsAux_eq_wordsFrom, List.nil_append,
    (wordsFrom_spec text).1]

/-
Layout engine embedding (drawer.go).  A tree with computed dimensions is
an `STree`: each node carries the width and height that
`calculateNodeSizes` stored in the `nodeSizes` map (the map assigns
exactly one `NodeSize` per node, so it is modelled as a per-node
attribute).  Positions are rational; see the header comment.
-/

/-- Spacing and sizing constants of a `DrawConfig` (drawer.go) that the
text shaper and layout engine read. -/
structure DrawConfig where
  minNodeWidth : ℚ
  maxNodeWidth : ℚ
  minNodeHeight : ℚ
  levelSpacing : ℚ
  nodeSpacing : ℚ
  lineHeight : ℚ
  textPadding : ℚ
deriving Repr, DecidableEq

/-- The default draw configuration (drawer.go `Default*` constants). -/
def defaultDrawConfig : DrawConfig :=
  { minNodeWidth := 100, maxNodeWidth := 240, minNodeHeight := 36,
    levelSpacing := 150, nodeSpacing := 30, lineHeight := 20,
    textPadding := 15 }

/-- A mind-map tree whose nodes carry their computed dimensions. -/
inductive STree where
  | node (width height : ℚ) (children : List STree)

/-- Width stored for a node. -/
def STree.width : STree → ℚ
  | .node w _ _ => w

/-- Height stored for a node. -/
def STree.height : STree → ℚ
  | .node _ h _ => h

/-- Child list of a node. -/
def STree.children : STree → List STree
  | .node _ _ cs => cs

mutual
/-- Model of `calculateSubtreeHeights` (drawer.go): the total vertical
space a node's subtree occupies.  A childless node's subtree height is
its own height; otherwise it is the larger of the node's own height and
the children's total height plus one `NodeSpacing` gap per pair of
adjacent children. -/
def subtreeHeight (cfg : DrawConfig) : STree → ℚ
  | .node _ h cs =>
    if cs.isEmpty then h
    else max h (subtreeSum cfg cs + cfg.nodeSpacing * ((cs.length : ℚ) - 1))

/-- Sum of the subtree heights of a list of children (the accumulation
loop inside `calculateSubtreeHeights`). -/
def subtreeSum (cfg : DrawConfig) : List STree → ℚ
  | [] => 0
  | c :: cs => subtreeHeight cfg c + subtreeSum cfg cs
end

/-- A positioned tree: the output of the layout engine.  Each node keeps
its dimensions and receives a center position `(x, y)`. -/
inductive PTree where
  | node (width height x y : ℚ) (children : List PTree)

/-- Width of a positioned node. -/
def PTree.width : PTree → ℚ
  | .node w _ _ _ _ => w

/-- Height of a positioned node. -/
def PTree.height : PTree → ℚ
  | .node _ h _ _ _ => h

/-- Assigned x coordinate (center) of a positioned node. -/
def PTree.x : PTree → ℚ
  | .node _ _ x _ _ => x

/-- Assigned y coordinate (center) of a positioned node. -/
def PTree.y : PTree → ℚ
  | .node _ _ _ y _ => y

/-- Children of a positioned node. -/
def PTree.children : PTree → List PTree
  | .node _ _ _ _ cs => cs

mutual
/-- Model of `horizontalMindmapLayoutDirectional` (drawer.go): places a
node at `(x, y)` and fans its children out toward side `dir` (`1` =
right, `-1` = left), stacking the children's subtree bands vertically,
centered on the parent's y. -/
def layoutDir (cfg : DrawConfig) (dir : Int) : STree → ℚ → ℚ → PTree
  | .node w h cs, x, y =>
    let total := subtreeSum cfg cs + cfg.nodeSpacing * ((cs.length : ℚ) - 1)
    .node w h x y (layoutChildren cfg dir w x (y - total / 2) cs)

/-- The child-placement loop of `horizontalMindmapLayoutDirectional`:
`curY` is the running top of the next child's subtree band. -/
def layoutChildren (cfg : DrawConfig) (dir : Int) (pw x curY : ℚ) :
    List STree → List PTree
  | [] => []
  | c :: cs =>
    let sh := subtreeHeight cfg c
    layoutDir cfg dir c
        (x + (dir : ℚ) * (pw / 2 + cfg.levelSpacing + c.width / 2))
        (curY + sh / 2) ::
      layoutChildren cfg dir pw x (curY + sh + cfg.nodeSpacing) cs
end

/-- Model of `splitChildrenBalanced` (drawer.go): the greedy loop carrying
both groups and their accumulated subtree heights. -/
def splitChildrenBalancedAux (cfg : DrawConfig) :
    List STree → List STree → List STree → ℚ → ℚ → List STree × List STree
  | [], left, right, _, _ => (left, right)
  | c :: cs, left, right, lh, rh =>
    let hgt := subtreeHeight cfg c
    if lh ≤ rh then
      splitChildrenBalancedAux cfg cs (left ++ [c]) right (lh + hgt) rh
    else
      splitChildrenBalancedAux cfg cs left (right ++ [c]) lh (rh + hgt)

/-- Model of `splitChildrenBalanced` (drawer.go): partitions the root's
children into a left and a right group. -/
def splitChildrenBalanced (cfg : DrawConfig) (children : List STree) :
    List STree × List STree :=
  splitChildrenBalancedAux cfg children [] [] 0 0

/-- Model of `horizontalMindmapLayoutBothSides` (drawer.go): the root's
children are split into two balanced groups; each group is laid out
single-direction on its side (right group first, as in the source; the
source sets coordinates in place, so only the set of positioned children
matters, not their order in this list). -/
def layoutBothSides (cfg : DrawConfig) : STree → ℚ → ℚ → PTree
  | .node w h cs, x, y =>
    let g := splitChildrenBalanced cfg cs
    let side := fun (group : List STree) (dir : Int) =>
      if group.isEmpty then []
      else
        layoutChildren cfg dir w x
          (y - (subtreeSum cfg group +
            cfg.nodeSpacing * ((group.length : ℚ) - 1)) / 2) group
    .node w h x y (side g.2 1 ++ side g.1 (-1))

/-- The layout-mode dispatch in `Draw` (drawer.go): `"both"` splits
across both sides, `"left"` lays out leftward, anything else (the
default `"right"`) lays out rightward; the root starts at the origin. -/
def layoutForMode (cfg : DrawConfig) (layout : String) (t : STree) : PTree :=
  if layout = "both" then layoutBothSides cfg t 0 0
  else if layout = "left" then layoutDir cfg (-1) t 0 0
  else layoutDir cfg 1 t 0 0

mutual
/-- All subtrees (the node itself and its descendants) of a sized tree. -/
def STree.nodesS : STree → List STree
  | .node w h cs => .node w h cs :: nodesSList cs

/-- All subtrees of the trees of a list. -/
def nodesSList : List STree → List STree
  | [] => []
  | c :: cs => STree.nodesS c ++ nodesSList cs
end

mutual
/-- All subtrees of a positioned tree. -/
def PTree.nodesP : PTree → List PTree
  | .node w h x y cs => .node w h x y cs :: nodesPList cs

/-- All subtrees of the positioned trees of a list. -/
def nodesPList : List PTree → List PTree
  | [] => []
  | c :: cs => PTree.nodesP c ++ nodesPList cs
end

mutual
/-- Every node of the tree has a nonnegative stored height. -/
def STree.heightsNonneg : STree → Bool
  | .node _ h cs => decide (0 ≤ h) && heightsNonnegList cs

/-- Every node of every tree in the list has a nonnegative height. -/
def heightsNonnegList : List STree → Bool
  | [] => true
  | c :: cs => STree.heightsNonneg c && heightsNonnegList cs
end

mutual
/-- Subtree height recomputed on a positioned tree (same formula as
`subtreeHeight`; the layout preserves dimensions and structure, so this
agrees with the pre-layout value, see `subH_layoutDir`). -/
def PTree.subH (cfg : DrawConfig) : PTree → ℚ
  | .node _ h _ _ cs =>
    if cs.isEmpty then h
    else max h (subHSum cfg cs + cfg.nodeSpacing * ((cs.length : ℚ) - 1))

/-- Sum of `PTree.subH` over a list. -/
def subHSum (cfg : DrawConfig) : List PTree → ℚ
  | [] => 0
  | c :: cs => PTree.subH cfg c + subHSum cfg cs
end

theorem layoutDir_def (cfg : DrawConfig) (dir : Int) (w h : ℚ) (cs : List STree)
    (x y : ℚ) :
    layoutDir cfg dir (.node w h cs) x y =
      .node w h x y (layoutChildren cfg dir w x
        (y - (subtreeSum cfg cs + cfg.nodeSpacing * ((cs.length : ℚ) - 1)) / 2) cs) := by
  rw [layoutDir]

theorem layoutDir_y (cfg : DrawConfig) (dir : Int) (t : STree) (x y : ℚ) :
    (layoutDir cfg dir t x y).y = y := by
  cases t with
  | node w h cs => rw [layoutDir_def, PTree.y]

theorem layoutDir_x (cfg : DrawConfig) (dir : Int) (t : STree) (x y : ℚ) :
    (layoutDir cfg dir t x y).x = x := by
  cases t with
  | node w h cs => rw [layoutDir_def, PTree.x]

mutual
theorem subH_layoutDir (cfg : DrawConfig) (dir : Int) :
    ∀ (t : STree) (x y : ℚ),
      PTree.subH cfg (layoutDir cfg dir t x y) = subtreeHeight cfg t
  | .node w h cs, x, y => by
    rw [layoutDir_def, PTree.subH, subtreeHeight]
    rcases cs with _ | ⟨c, cs⟩
    · simp [layoutChildren]
    · have hsum := subH_layoutChildren cfg dir w x
        (y - (subtreeSum cfg (c :: cs) + cfg.nodeSpacing * (((c :: cs).length : ℚ) - 1)) / 2)
        (c :: cs)
      simp only [layoutChildren, List.isEmpty_cons] at hsum ⊢
      rw [hsum.1, hsum.2]

theorem subH_layoutChildren (cfg : DrawConfig) (dir : Int) :
    ∀ (pw x curY : ℚ) (cs : List STree),
      subHSum cfg (layoutChildren cfg dir pw x curY cs) = subtreeSum cfg cs ∧
        (layoutChildren cfg dir pw x curY cs).length = cs.length
  | pw, x, curY, [] => by simp [layoutChildren, subHSum, subtreeSum]
  | pw, x, curY, c :: cs => by
    have h1 := subH_layoutDir cfg dir c
      (x + (dir : ℚ) * (pw / 2 + cfg.levelSpacing + c.width / 2))
      (curY + subtreeHeight cfg c / 2)
    have h2 := subH_layoutChildren cfg dir pw x
      (curY + subtreeHeight cfg c + cfg.nodeSpacing) cs
    simp only [layoutChildren, subHSum, subtreeSum, List.length_cons]
    rw [h1, h2.1, h2.2]
    exact ⟨rfl, rfl⟩
end

theorem heightsNonneg_node (w h : ℚ) (cs : List STree)
    (hn : (STree.node w h cs).heightsNonneg = true) :
    0 ≤ h ∧ heightsNonnegList cs = true := by
  rw [STree.heightsNonneg] at hn
  simpa using hn

theorem heightsNonnegList_mem {cs : List STree}
    (hn : heightsNonnegList cs = true) : ∀ c ∈ cs, c.heightsNonneg = true := by
  induction cs with
  | nil => intro c hc; simp at hc
  | cons d ds ih =>
    rw [heightsNonnegList, Bool.and_eq_true] at hn
    intro c hc
    rcases List.mem_cons.mp hc with rfl | hc
    · exact hn.1
    · exact ih hn.2 c hc

theorem subtreeHeight_nonneg (cfg : DrawConfig) (t : STree)
    (hn : t.heightsNonneg = true) : 0 ≤ subtreeHeight cfg t := by
  cases t with
  | node w h cs =>
    have h0 := (heightsNonneg_node w h cs hn).1
    rw [subtreeHeight]
    split
    · exact h0
    · exact le_trans h0 (le_max_left _ _)

theorem layoutChildren_band_lower (cfg : DrawConfig) (dir : Int) (pw x : ℚ)
    (hsp : 0 ≤ cfg.nodeSpacing) :
    ∀ (cs : List STree) (curY : ℚ), (∀ c ∈ cs, 0 ≤ subtreeHeight cfg c) →
      ∀ p ∈ layoutChildren cfg dir pw x curY cs,
        curY ≤ p.y - PTree.subH cfg p / 2 := by
  intro cs
  induction cs with
  | nil => intro curY _ p hp; simp [layoutChildren] at hp
  | cons c cs ih =>
    intro curY hnn p hp
    simp only [layoutChildren] at hp
    rcases List.mem_cons.mp hp with rfl | hp
    · rw [layoutDir_y, subH_layoutDir]
      linarith
    · have h0 : 0 ≤ subtreeHeight cfg c := hnn c (by simp)
      have := ih (curY + subtreeHeight cfg c + cfg.nodeSpacing)
        (fun d hd => hnn d (by simp [hd])) p hp
      linarith

/-- The vertical band of sibling `a` (its subtree-height-tall strip
centered on its assigned y) lies entirely above the band of sibling `b`,
with a gap of at least the configured node spacing between them. -/
def bandsSeparated (cfg : DrawConfig) (a b : PTree) : Prop :=
  a.y + PTree.subH cfg a / 2 + cfg.nodeSpacing ≤ b.y - PTree.subH cfg b / 2

theorem layoutChildren_pairwise (cfg : DrawConfig) (dir : Int) (pw x : ℚ)
    (hsp : 0 ≤ cfg.nodeSpacing) :
    ∀ (cs : List STree) (curY : ℚ), (∀ c ∈ cs, 0 ≤ subtreeHeight cfg c) →
      (layoutChildren cfg dir pw x curY cs).Pairwise (bandsSeparated cfg) := by
  intro cs
  induction cs with
  | nil => intro curY _; simp [layoutChildren]
  | cons c cs ih =>
    intro curY hnn
    simp only [layoutChildren]
    refine List.Pairwise.cons ?_
      (ih (curY + subtreeHeight cfg c + cfg.nodeSpacing)
        (fun d hd => hnn d (by simp [hd])))
    intro q hq
    have hlow := layoutChildren_band_lower cfg dir pw x hsp cs
      (curY + subtreeHeight cfg c + cfg.nodeSpacing)
      (fun d hd => hnn d (by simp [hd])) q hq
    rw [bandsSeparated, layoutDir_y, subH_layoutDir]
    linarith

mutual
theorem sepAll_layoutDir (cfg : DrawConfig) (dir : Int)
    (hsp : 0 ≤ cfg.nodeSpacing) :
    ∀ (t : STree) (x y : ℚ), t.heightsNonneg = true →
      ∀ p ∈ (layoutDir cfg dir t x y).nodesP,
        p.children.Pairwise (bandsSeparated cfg)
  | .node w h cs, x, y, hnn, p, hp => by
    have hcs := (heightsNonneg_node w h cs hnn).2
    rw [layoutDir_def, PTree.nodesP] at hp
    rcases List.mem_cons.mp hp with rfl | hp
    · rw [PTree.children]
      exact layoutChildren_pairwise cfg dir w x hsp cs _
        (fun c hc => subtreeHeight_nonneg cfg c (heightsNonnegList_mem hcs c hc))
    · exact sepAll_layoutChildren cfg dir hsp cs w x _ hcs p hp

theorem sepAll_layoutChildren (cfg : DrawConfig) (dir : Int)
    (hsp : 0 ≤ cfg.nodeSpacing) :
    ∀ (cs : List STree) (pw x curY : ℚ), heightsNonnegList cs = true →
      ∀ p ∈ nodesPList (layoutChildren cfg dir pw x curY cs),
        p.children.Pairwise (bandsSeparated cfg)
  | [], pw, x, curY, _, p, hp => by simp [layoutChildren, nodesPList] at hp
  | c :: cs, pw, x, curY, hnn, p, hp => by
    rw [heightsNonnegList, Bool.and_eq_true] at hnn
    simp only [layoutChildren, nodesPList] at hp
    rcases List.mem_append.mp hp with hp | hp
    · exact sepAll_layoutDir cfg dir hsp c _ _ hnn.1 p hp
    · exact sepAll_layoutChildren cfg dir hsp cs pw x _ hnn.2 p hp
end

/-- C1: for every tree with computed node dimensions (all heights
nonnegative) and nonnegative configured node spacing, after directional
layout the subtree-height-tall vertical bands centered on the assigned
y's of any two siblings are disjoint, separated by a gap of at least the
configured node spacing (pairwise in child order). -/
theorem c1_sibling_bands_disjoint (cfg : DrawConfig) (dir : Int) (t : STree)
    (x y : ℚ) (hsp : 0 ≤ cfg.nodeSpacing) (hn : t.heightsNonneg = true) :
    ∀ p ∈ (layoutDir cfg dir t x y).nodesP,
      p.children.Pairwise (bandsSeparated cfg) :=
  sepAll_layoutDir cfg dir hsp t x y hn

/-- C1 witness: the separation theorem applied to a concrete tree (a
root with two stacked children, default spacing), instantiated at the
laid-out root itself. -/
theorem c1_sibling_bands_disjoint_witness :
    (layoutDir defaultDrawConfig 1
        (.node 100 36 [.node 120 40 [], .node 110 50 []]) 0 0).children.Pairwise
      (bandsSeparated defaultDrawConfig) :=
  c1_sibling_bands_disjoint defaultDrawConfig 1
    (.node 100 36 [.node 120 40 [], .node 110 50 []]) 0 0
    (by decide) (by decide) _
    (by rw [layoutDir_def, PTree.nodesP]; exact List.mem_cons_self _ _)

mutual
/-- Mirror a positioned tree through the vertical axis `x = 0`: every
node's x is negated, y and dimensions are unchanged. -/
def PTree.mirrorX : PTree → PTree
  | .node w h x y cs => .node w h (-x) y (mirrorXList cs)

/-- Mirror every tree of a list through `x = 0`. -/
def mirrorXList : List PTree → List PTree
  | [] => []
  | c :: cs => PTree.mirrorX c :: mirrorXList cs
end

mutual
theorem layoutDir_mirror (cfg : DrawConfig) :
    ∀ (t : STree) (x y : ℚ),
      layoutDir cfg (-1) t (-x) y = PTree.mirrorX (layoutDir cfg 1 t x y)
  | .node w h cs, x, y => by
    rw [layoutDir_def, layoutDir_def, PTree.mirrorX]
    rw [layoutChildren_mirror cfg cs w x _]

theorem layoutChildren_mirror (cfg : DrawConfig) :
    ∀ (cs : List STree) (pw x curY : ℚ),
      layoutChildren cfg (-1) pw (-x) curY cs =
        mirrorXList (layoutChildren cfg 1 pw x curY cs)
  | [], pw, x, curY => by rw [layoutChildren, layoutChildren, mirrorXList]
  | c :: cs, pw, x, curY => by
    simp only [layoutChildren, mirrorXList, List.cons.injEq]
    constructor
    · have hx : -x + ((-1 : Int) : ℚ) * (pw / 2 + cfg.levelSpacing + c.width / 2) =
          -(x + ((1 : Int) : ℚ) * (pw / 2 + cfg.levelSpacing + c.width / 2)) := by
        push_cast
        ring
      rw [hx, layoutDir_mirror cfg c _ _]
    · exact layoutChildren_mirror cfg cs pw x _
end

/-- C2: laying out with mode `"left"` produces exactly the mirror image
(through the root's vertical axis) of laying out with mode `"right"`:
every node's x-offset relative to the root (which sits at x = 0 in both
runs) is negated and every y-coordinate is unchanged, for every tree
and every theme configuration. -/
theorem c2_left_right_mirror (cfg : DrawConfig) (t : STree) :
    layoutForMode cfg "left" t = PTree.mirrorX (layoutForMode cfg "right" t) ∧
    (layoutForMode cfg "left" t).x = 0 ∧
    (layoutForMode cfg "right" t).x = 0 := by
  have hL : layoutForMode cfg "left" t = layoutDir cfg (-1) t 0 0 := by
    rw [layoutForMode, if_neg (by decide), if_pos rfl]
  have hR : layoutForMode cfg "right" t = layoutDir cfg 1 t 0 0 := by
    rw [layoutForMode, if_neg (by decide), if_neg (by decide)]
  refine ⟨?_, ?_, ?_⟩
  · rw [hL, hR, show (0 : ℚ) = -0 by norm_num]
    exact layoutDir_mirror cfg t 0 (-0)
  · rw [hL, layoutDir_x]
  · rw [hR, layoutDir_x]

/-- C3: for every node with computed dimensions (own height and spacing
nonnegative), the computed subtree height equals the larger of the
node's own height and the sum of its children's subtree heights plus one
node-spacing gap per adjacent pair; a childless node's subtree height is
exactly its own height, and a single child adds no inter-child gap. -/
theorem c3_subtreeHeight_formula (cfg : DrawConfig) (w h : ℚ) (cs : List STree)
    (hsp : 0 ≤ cfg.nodeSpacing) (hh : 0 ≤ h) :
    subtreeHeight cfg (.node w h cs) =
      max h (subtreeSum cfg cs + cfg.nodeSpacing * ((cs.length : ℚ) - 1)) ∧
    subtreeHeight cfg (.node w h []) = h ∧
    ∀ c : STree, subtreeHeight cfg (.node w h [c]) =
      max h (subtreeHeight cfg c) := by
  refine ⟨?_, ?_, ?_⟩
  · rw [subtreeHeight]
    rcases cs with _ | ⟨c, cs⟩
    · rw [if_pos (by simp)]
      rw [eq_comm, max_eq_left]
      rw [subtreeSum]
      simp only [List.length_nil, Nat.cast_zero, zero_sub, zero_add]
      nlinarith
    · rw [if_neg (by simp)]
  · rw [subtreeHeight, if_pos (by simp)]
  · intro c
    rw [subtreeHeight, if_neg (by simp), subtreeSum, subtreeSum]
    norm_num

/-- C3 witness: the formula evaluated on a two-child node with the
default configuration. -/
theorem c3_subtreeHeight_formula_witness :
    subtreeHeight defaultDrawConfig (.node 100 36 [.node 120 40 [], .node 110 50 []]) =
      max 36 (subtreeSum defaultDrawConfig [.node 120 40 [], .node 110 50 []] +
        defaultDrawConfig.nodeSpacing * (((["x", "y"].length : ℚ)) - 1)) ∧
    subtreeHeight defaultDrawConfig (.node 100 36 []) = 36 ∧
    ∀ c : STree, subtreeHeight defaultDrawConfig (.node 100 36 [c]) =
      max 36 (subtreeHeight defaultDrawConfig c) := by
  have := c3_subtreeHeight_formula defaultDrawConfig 100 36
    [.node 120 40 [], .node 110 50 []] (by decide) (by decide)
  exact ⟨this.1, this.2.1, this.2.2⟩

/-- C6: in `"both"` layout mode the root's children are partitioned by
the greedy rule (each child in order joins the side whose accumulated
subtree height is not larger); for a root with exactly four children of
equal positive subtree height the partition puts two children on each
side (children one and three left, children two and four right). -/
theorem c6_both_mode_split (cfg : DrawConfig) (a b c d : STree) (hgt : ℚ)
    (hpos : 0 < hgt) (ha : subtreeHeight cfg a = hgt)
    (hb : subtreeHeight cfg b = hgt) (hc : subtreeHeight cfg c = hgt)
    (hd : subtreeHeight cfg d = hgt) :
    splitChildrenBalanced cfg [a, b, c, d] = ([a, c], [b, d]) ∧
    (splitChildrenBalanced cfg [a, b, c, d]).1.length = 2 ∧
    (splitChildrenBalanced cfg [a, b, c, d]).2.length = 2 := by
  have key : splitChildrenBalanced cfg [a, b, c, d] = ([a, c], [b, d]) := by
    rw [splitChildrenBalanced]
    simp only [splitChildrenBalancedAux, ha, hb, hc, hd]
    rw [if_pos le_rfl]
    rw [if_neg (by linarith)]
    rw [if_pos (by linarith)]
    rw [if_neg (by linarith)]
    simp
  exact ⟨key, by rw [key]; rfl, by rw [key]; rfl⟩

/-- C6 witness: four equal leaves of height 36 split two and two. -/
theorem c6_both_mode_split_witness :
    splitChildrenBalanced defaultDrawConfig
      [.node 100 36 [], .node 100 36 [], .node 100 36 [], .node 100 36 []] =
      ([.node 100 36 [], .node 100 36 []], [.node 100 36 [], .node 100 36 []]) ∧
    (splitChildrenBalanced defaultDrawConfig
      [.node 100 36 [], .node 100 36 [], .node 100 36 [], .node 100 36 []]).1.length = 2 ∧
    (splitChildrenBalanced defaultDrawConfig
      [.node 100 36 [], .node 100 36 [], .node 100 36 [], .node 100 36 []]).2.length = 2 :=
  c6_both_mode_split defaultDrawConfig _ _ _ _ 36 (by decide)
    (by decide) (by decide) (by decide) (by decide)

/-
Text shaper embedding (drawer.go `calculateTextWrapping` and helpers).
-/

/-- Model of the `NodeSize` struct (drawer.go). -/
structure NodeSize where
  width : ℚ
  height : ℚ
  lines : List (List Char)
  actualTextWidth : ℚ
deriving Repr, DecidableEq

/-- Loop body of `breakTextIntoLines` (drawer.go): greedy packing of
words into lines of at most `availableWidth`; `isFirst` records whether
the word index is zero (Go computes a space width only for `i > 0`). -/
def breakTextAux (measure : List Char → ℚ) (availableWidth : ℚ) :
    List (List Char) → List (List Char) → List Char → ℚ → Bool → List (List Char)
  | [], lines, curLine, _, _ =>
    if curLine.isEmpty then lines else lines ++ [curLine]
  | word :: rest, lines, curLine, curWidth, isFirst =>
    let wordWidth := measure word
    let spaceWidth :=
      if !isFirst && !curLine.isEmpty then measure [' '] else 0
    if curWidth + wordWidth + spaceWidth ≤ availableWidth then
      if curLine.isEmpty then
        breakTextAux measure availableWidth rest lines word
          (curWidth + wordWidth) false
      else
        breakTextAux measure availableWidth rest lines
          (curLine ++ [' '] ++ word) (curWidth + spaceWidth + wordWidth) false
    else
      if curLine.isEmpty then
        breakTextAux measure availableWidth rest lines word wordWidth false
      else
        breakTextAux measure availableWidth rest (lines ++ [curLine]) word
          wordWidth false

/-- Model of `breakTextIntoLines` (drawer.go). -/
def breakTextIntoLines (measure : List Char → ℚ) (words : List (List Char))
    (availableWidth : ℚ) : List (List Char) :=
  breakTextAux measure availableWidth words [] [] 0 true

/-- Number of Han characters in a line (the `chineseCount` loop). -/
def hanCountL (l : List Char) : Nat :=
  (l.filter goIsHan).length

/-- The forced re-splitting loop for overlong CJK lines: cuts after
every tenth Han character. -/
def resplitAux : List Char → List Char → Nat → List (List Char)
  | [], cur, _ => if cur.isEmpty then [] else [cur]
  | r :: rest, cur, count =>
    if goIsHan r then
      if count + 1 ≥ 10 then (cur ++ [r]) :: resplitAux rest [] 0
      else resplitAux rest (cur ++ [r]) (count + 1)
    else resplitAux rest (cur ++ [r]) count

/-- Per-line CJK re-split (drawer.go): a line with more than twenty Han
characters is re-split roughly every ten Han characters; other lines
pass through unchanged. -/
def resplitLine (line : List Char) : List (List Char) :=
  if hanCountL line > 20 then resplitAux line [] 0 else [line]

/-- Model of `calculateTextWrapping` (drawer.go): word-wraps a label and
returns the node's dimensions.  `measure` abstracts the font-dependent
`dc.MeasureString` (the memoizing cache only avoids re-measuring and
does not change values, so it is not modelled). -/
def calculateTextWrapping (measure : List Char → ℚ) (cfg : DrawConfig)
    (text : List Char) : NodeSize :=
  let words := splitIntoWords text
  if words.isEmpty then
    { width := cfg.minNodeWidth, height := cfg.minNodeHeight,
      lines := [], actualTextWidth := 0 }
  else
    let textWidth := (words.map measure).sum +
      ((words.length : ℚ) - 1) * measure [' ']
    let nodeWidth0 := textWidth + 2 * cfg.textPadding
    let nodeWidth :=
      if nodeWidth0 < cfg.minNodeWidth then cfg.minNodeWidth
      else if nodeWidth0 > cfg.maxNodeWidth then cfg.maxNodeWidth
      else nodeWidth0
    let availableWidth := nodeWidth - 2 * cfg.textPadding
    let lines := breakTextIntoLines measure words availableWidth
    let finalLines := (lines.map resplitLine).flatten
    let maxLineWidth := finalLines.foldl (fun m l => max m (measure l)) 0
    let nodeHeight0 := (finalLines.length : ℚ) * cfg.lineHeight +
      2 * cfg.textPadding
    let nodeHeight :=
      if nodeHeight0 < cfg.minNodeHeight then cfg.minNodeHeight else nodeHeight0
    { width := nodeWidth, height := nodeHeight,
      lines := finalLines, actualTextWidth := maxLineWidth }

/-- C4: for every label (of any length, including empty), every font
measurement function and every theme configuration whose width bounds
are consistent, the node width computed by the text shaper lies within
the configured minimum and maximum node widths. -/
theorem c4_node_width_clamped (measure : List Char → ℚ) (cfg : DrawConfig)
    (text : List Char) (hmm : cfg.minNodeWidth ≤ cfg.maxNodeWidth) :
    cfg.minNodeWidth ≤ (calculateTextWrapping measure cfg text).width ∧
    (calculateTextWrapping measure cfg text).width ≤ cfg.maxNodeWidth := by
  rw [calculateTextWrapping]
  split
  · exact ⟨le_refl _, hmm⟩
  · dsimp only
    split_ifs with h1 h2
    · exact ⟨le_refl _, hmm⟩
    · exact ⟨hmm, le_refl _⟩
    · constructor <;> linarith

/-- C4 witness: the clamping theorem applied to a concrete label and a
simple per-character measurement, with the default configuration. -/
theorem c4_node_width_clamped_witness :
    defaultDrawConfig.minNodeWidth ≤
      (calculateTextWrapping (fun l => (l.length : ℚ) * 8) defaultDrawConfig
        ("hello world".toList)).width ∧
    (calculateTextWrapping (fun l => (l.length : ℚ) * 8) defaultDrawConfig
        ("hello world".toList)).width ≤ defaultDrawConfig.maxNodeWidth :=
  c4_node_width_clamped (fun l => (l.length : ℚ) * 8) defaultDrawConfig
    ("hello world".toList) (by decide)

/-- C5 counterexample: the word splitter keeps the two-ideograph label
"中文" as a single word; it does not give each CJK ideograph its own
word. -/
theorem c5_counterexample :
    splitIntoWords ['中', '文'] = [['中', '文']] ∧
    [['中', '文']] ≠ [['中'], ['文']] := by
  constructor
  · decide
  · decide

/-- C5 (amended): the word splitter breaks the text at spaces and at
every transition into or out of a contiguous run of CJK ideographs, so a
maximal run of CJK ideographs forms a single word (CJK text segments per
run, not per character) while Latin text segments on spaces: it computes
exactly the run-based segmentation `wordsSpec`. -/
theorem c5_words_run_segmentation (text : List Char) :
    splitIntoWords text = wordsSpec text :=
  splitIntoWords_eq_wordsSpec text

/-
Outline parser embedding (parser.go `Parse` and helpers).
-/

/-- A parsed mind-map tree: a labeled node and its children (the
`types.Node` fields the parser fills in; geometry is added later). -/
inductive OTree where
  | node (text : List Char) (children : List OTree)

/-- Node record while parsing: label and child ids.  Go links nodes by
pointer; here nodes live in a list and children are indices into it (a
child's id always exceeds its parent's, since the child is created on a
later line). -/
structure PNode where
  text : List Char
  children : List Nat
deriving Repr, DecidableEq

/-- The mutable state of Go `Parse`'s scanning loop: the `stack` slice,
the root, the `foundMindmap` flag, the `levelLastNodes` map, the
previous line's level and the created (attached) nodes.  Dropped nodes
(Go allocates them but attaches them nowhere) are not recorded: they are
unreachable from the root. -/
structure ParseState where
  stack : List Nat
  root : Option Nat
  foundMindmap : Bool
  levelLast : Int → Option Nat
  prevLevel : Int
  nodes : List PNode

/-- The state before any line is processed (`prevLevel = -1`). -/
def initState : ParseState :=
  { stack := [], root := none, foundMindmap := false,
    levelLast := fun _ => none, prevLevel := -1, nodes := [] }

/-- Model of `strings.Split(input, "\n")`. -/
def splitNL : List Char → List (List Char)
  | [] => [[]]
  | c :: cs =>
    let r := splitNL cs
    if c = '\n' then [] :: r
    else (c :: r.headD []) :: r.tail

/-- Model of bufio's `dropCR`: strip one trailing carriage return. -/
def dropCR (l : List Char) : List Char :=
  if l.getLast? = some '\r' then l.dropLast else l

/-- The lines the `bufio.Scanner` yields over the input: split on
newlines, no token for the trailing empty rest after a final newline,
one trailing carriage return stripped per line. -/
def goLines (input : List Char) : List (List Char) :=
  let ls := splitNL input
  (if ls.getLast? = some [] then ls.dropLast else ls).map dropCR

/-- Model of `detectIndentationType` (parser.go): count lines beginning
with a tab against lines beginning with two spaces; `true` means tab
indentation wins. -/
def detectIndentationType (input : List Char) : Bool :=
  let ls := splitNL input
  let tabCount := (ls.filter (fun l => l.head? == some '\t')).length
  let spaceCount := (ls.filter (fun l => decide (l.take 2 = [' ', ' ']))).length
  tabCount > spaceCount

/-- The counting loop of `countIndentation` (parser.go): a leading space
counts one, a leading tab counts two, anything else stops the scan. -/
def countIndentAux : List Char → Nat
  | [] => 0
  | c :: rest =>
    if c = ' ' then 1 + countIndentAux rest
    else if c = '\t' then 2 + countIndentAux rest
    else 0

/-- Model of `countIndentation` (parser.go): two indentation units per
level. -/
def countIndentation (line : List Char) : Nat :=
  countIndentAux line / 2

/-- Model of `getIndentationLevel` (parser.go): in tab mode count the
leading tabs, otherwise use `countIndentation`. -/
def getIndentationLevel (tabMode : Bool) (line : List Char) : Nat :=
  if tabMode then (line.takeWhile (fun c => c == '\t')).length
  else countIndentation line

/-- Model of `strings.TrimSpace`: drop Unicode whitespace from both
ends. -/
def trimSpace (l : List Char) : List Char :=
  ((l.dropWhile goIsSpace).reverse.dropWhile goIsSpace).reverse

/-- Model of `cleanText` (parser.go): strip the leading run of spaces,
tabs and dashes, then trim surrounding whitespace. -/
def cleanText (l : List Char) : List Char :=
  trimSpace (l.dropWhile (fun c => c == ' ' || c == '\t' || c == '-'))

/-- Model of `strings.TrimPrefix(text, "root")`. -/
def dropRootTok (l : List Char) : List Char :=
  if l.take 4 = ['r', 'o', 'o', 't'] then l.drop 4 else l

/-- Whether the anchored regular expression matching a body wrapped in
double parentheses accepts the text (its dot does not match a
newline). -/
def hasParensShape (l : List Char) : Bool :=
  decide (4 ≤ l.length) && decide (l.take 2 = ['(', '(']) &&
  decide (l.drop (l.length - 2) = [')', ')']) &&
  !((l.drop 2).take (l.length - 4)).contains '\n'

/-- The capture group of the double-parentheses pattern. -/
def parenInner (l : List Char) : List Char :=
  (l.drop 2).take (l.length - 4)

/-- Model of `cleanRootText` (parser.go): regular cleaning, then strip a
leading `root` token, then unwrap enclosing double parentheses when the
whole text has that shape. -/
def cleanRootText (l : List Char) : List Char :=
  let t := dropRootTok (cleanText l)
  if hasParensShape t then parenInner t else trimSpace t

/-- Append `child` to the child list of node `parent` (the Go statement
`parent.Children = append(parent.Children, node)`). -/
def appendChild (nodes : List PNode) (parent child : Nat) : List PNode :=
  nodes.set parent
    { text := (nodes.getD parent ⟨[], []⟩).text,
      children := (nodes.getD parent ⟨[], []⟩).children ++ [child] }

/-- One iteration of Go `Parse`'s scanning loop on a single line,
transliterated branch by branch from parser.go. -/
def processLine (tabMode : Bool) (st : ParseState) (line : List Char) :
    ParseState :=
  let trimmed := trimSpace line
  if trimmed.isEmpty then st
  else if trimmed = "mindmap".toList then { st with foundMindmap := true }
  else
    let level : Int := (getIndentationLevel tabMode line : Int)
    let cleaned0 := cleanText trimmed
    let cleaned :=
      if (level = 0 ∧ st.foundMindmap = false) ∨
          (level = 1 ∧ st.foundMindmap = true) then
        cleanRootText cleaned0
      else cleaned0
    let nid := st.nodes.length
    if st.foundMindmap = false ∧ level = 0 then
      { stack := [nid], root := some nid, foundMindmap := st.foundMindmap,
        levelLast := fun l => if l = level then some nid else st.levelLast l,
        prevLevel := level, nodes := st.nodes ++ [⟨cleaned, []⟩] }
    else if st.foundMindmap = true ∧ level = 1 then
      { stack := [nid], root := some nid, foundMindmap := false,
        levelLast := fun l => if l = level then some nid else st.levelLast l,
        prevLevel := level, nodes := st.nodes ++ [⟨cleaned, []⟩] }
    else if st.root ≠ none then
      if level > st.prevLevel then
        match st.levelLast st.prevLevel with
        | some p =>
          { stack :=
              if (st.stack.length : Int) > level then st.stack.set level.toNat nid
              else st.stack ++ [nid],
            root := st.root, foundMindmap := st.foundMindmap,
            levelLast := fun l => if l = level then some nid else st.levelLast l,
            prevLevel := level,
            nodes := appendChild (st.nodes ++ [⟨cleaned, []⟩]) p nid }
        | none => { st with prevLevel := level }
      else
        if 0 ≤ level - 1 then
          match st.levelLast (level - 1) with
          | some p =>
            if (st.stack.length : Int) > level then
              { stack := st.stack.take level.toNat ++ [nid],
                root := st.root, foundMindmap := st.foundMindmap,
                levelLast := fun l =>
                  if l = level then some nid
                  else if level + 1 ≤ l ∧ l ≤ st.prevLevel then none
                  else st.levelLast l,
                prevLevel := level,
                nodes := appendChild (st.nodes ++ [⟨cleaned, []⟩]) p nid }
            else
              { stack := st.stack ++ [nid],
                root := st.root, foundMindmap := st.foundMindmap,
                levelLast := fun l => if l = level then some nid else st.levelLast l,
                prevLevel := level,
                nodes := appendChild (st.nodes ++ [⟨cleaned, []⟩]) p nid }
          | none => { st with prevLevel := level }
        else { st with prevLevel := level }
    else st

/-- Materialize the tree reachable from node `id`; child ids strictly
exceed their parent's id, so a fuel of `nodes.length` always suffices. -/
def toOTree (nodes : List PNode) : Nat → Nat → OTree
  | 0, _ => .node [] []
  | fuel + 1, id =>
    let pn := nodes.getD id ⟨[], []⟩
    .node pn.text (pn.children.map (toOTree nodes fuel))

/-- The tail of Go `Parse`: a missing root falls back to the default
single-node tree labeled `Root`; the scanner never errs on in-memory
input, so the error channel stays unused. -/
def parseResult (st : ParseState) : Except String OTree :=
  match st.root with
  | none => .ok (.node "Root".toList [])
  | some r => .ok (toOTree st.nodes st.nodes.length r)

/-- Model of `Parse` (parser.go). -/
def Parse (input : List Char) : Except String OTree :=
  parseResult
    ((goLines input).foldl (processLine (detectIndentationType input)) initState)

theorem mem_splitNL (input : List Char) :
    ∀ l ∈ splitNL input, ∀ c ∈ l, c ∈ input := by
  induction input with
  | nil =>
    intro l hl c hc
    rw [splitNL] at hl
    rcases List.mem_singleton.mp hl with rfl
    simp at hc
  | cons a as ih =>
    intro l hl c hc
    rw [splitNL] at hl
    by_cases ha : a = '\n'
    · rw [if_pos ha] at hl
      rcases List.mem_cons.mp hl with rfl | hl
      · simp at hc
      · exact List.mem_cons_of_mem a (ih l hl c hc)
    · rw [if_neg ha] at hl
      rcases List.mem_cons.mp hl with rfl | hl
      · rcases List.mem_cons.mp hc with rfl | hc
        · exact List.mem_cons_self _ _
        · rcases hr : splitNL as with _ | ⟨r0, rs⟩
          · rw [hr] at hc; simp at hc
          · rw [hr] at hc
            exact List.mem_cons_of_mem a
              (ih r0 (by rw [hr]; exact List.mem_cons_self _ _) c (by simpa using hc))
      · exact List.mem_cons_of_mem a
          (ih l (List.tail_subset _ hl) c hc)

theorem mem_dropCR (l : List Char) : ∀ c ∈ dropCR l, c ∈ l := by
  intro c hc
  rw [dropCR] at hc
  split at hc
  · exact (List.dropLast_sublist l).subset hc
  · exact hc

theorem mem_goLines (input : List Char) :
    ∀ l ∈ goLines input, ∀ c ∈ l, c ∈ input := by
  intro l hl c hc
  rw [goLines] at hl
  rcases List.mem_map.mp hl with ⟨l0, hl0, rfl⟩
  refine mem_splitNL input l0 ?_ c (mem_dropCR l0 c hc)
  split at hl0
  · exact (List.dropLast_sublist _).subset hl0
  · exact hl0

theorem trimSpace_allspace (l : List Char)
    (h : ∀ c ∈ l, goIsSpace c = true) : trimSpace l = [] := by
  rw [trimSpace, List.dropWhile_eq_nil_iff.mpr h]
  simp

theorem processLine_blank (tabMode : Bool) (st : ParseState) (line : List Char)
    (h : trimSpace line = []) : processLine tabMode st line = st := by
  rw [processLine, h]
  simp

theorem foldl_processLine_blank (tabMode : Bool) :
    ∀ (ls : List (List Char)) (st : ParseState),
      (∀ l ∈ ls, trimSpace l = []) →
      ls.foldl (processLine tabMode) st = st := by
  intro ls
  induction ls with
  | nil => intro st _; rfl
  | cons l ls ih =>
    intro st h
    rw [List.foldl_cons, processLine_blank tabMode st l (h l (by simp))]
    exact ih st (fun x hx => h x (by simp [hx]))

/-- C8: an input consisting only of whitespace characters (blank lines,
spaces, tabs) parses without error to the default single-node tree whose
root is labeled exactly `Root` and has no children. -/
theorem c8_whitespace_default_root (input : List Char)
    (hws : ∀ c ∈ input, goIsSpace c = true) :
    Parse input = .ok (.node "Root".toList []) := by
  rw [Parse, foldl_processLine_blank _ _ _
    (fun l hl => trimSpace_allspace l (fun c hc => hws c (mem_goLines input l hl c hc)))]
  rfl

/-- C8 witness: a concrete input of spaces, tabs and newlines. -/
theorem c8_whitespace_default_root_witness :
    Parse [' ', ' ', '\n', '\t', ' ', '\n', '\n'] = .ok (.node "Root".toList []) :=
  c8_whitespace_default_root [' ', ' ', '\n', '\t', ' ', '\n', '\n'] (by decide)

/-- A label character for the parser theorems: not whitespace and not a
dash (so `cleanText` leaves it alone). -/
def plainLabelChar (c : Char) : Prop :=
  goIsSpace c = false ∧ c ≠ '-'

instance : DecidablePred plainLabelChar := fun c =>
  decidable_of_iff (goIsSpace c = false ∧ c ≠ '-') Iff.rfl

theorem splitNL_no_newline (s : List Char) (h : '\n' ∉ s) :
    splitNL s = [s] := by
  induction s with
  | nil => rfl
  | cons c cs ih =>
    rw [splitNL, if_neg (by intro hc; exact h (hc ▸ List.mem_cons_self _ _)),
      ih (fun hc => h (List.mem_cons_of_mem c hc))]
    rfl

theorem splitNL_append (a rest : List Char) (h : '\n' ∉ a) :
    splitNL (a ++ '\n' :: rest) = a :: splitNL rest := by
  induction a with
  | nil => rw [List.nil_append, splitNL, if_pos rfl]
  | cons x xs ih =>
    rw [List.cons_append, splitNL,
      if_neg (by intro hx; exact h (hx ▸ List.mem_cons_self _ _)),
      ih (fun hx => h (List.mem_cons_of_mem x hx))]
    rfl

theorem dropWhile_eq_self_of (p : Char → Bool) (l : List Char)
    (h : ∀ c ∈ l, p c = false) : l.dropWhile p = l := by
  cases l with
  | nil => rfl
  | cons c cs =>
    exact List.dropWhile_cons_of_neg (by simp [h c (List.mem_cons_self _ _)])

theorem dropWhile_spaces_append (p : Char → Bool) :
    ∀ (pre s : List Char), (∀ c ∈ pre, p c = true) →
      (pre ++ s).dropWhile p = s.dropWhile p := by
  intro pre
  induction pre with
  | nil => intro s _; rfl
  | cons c cs ih =>
    intro s h
    rw [List.cons_append, List.dropWhile_cons_of_pos (h c (by simp))]
    exact ih s (fun d hd => h d (by simp [hd]))

theorem trimSpace_plain (s : List Char)
    (h : ∀ c ∈ s, goIsSpace c = false) : trimSpace s = s := by
  rw [trimSpace, dropWhile_eq_self_of _ _ h,
    dropWhile_eq_self_of _ _ (fun c hc => h c (List.mem_reverse.mp hc)),
    List.reverse_reverse]

theorem trimSpace_pre (pre s : List Char) (hpre : ∀ c ∈ pre, goIsSpace c = true)
    (h : ∀ c ∈ s, goIsSpace c = false) : trimSpace (pre ++ s) = s := by
  rw [trimSpace, dropWhile_spaces_append _ pre s hpre,
    dropWhile_eq_self_of _ _ h,
    dropWhile_eq_self_of _ _ (fun c hc => h c (List.mem_reverse.mp hc)),
    List.reverse_reverse]

theorem goIsSpace_dash_chars :
    goIsSpace ' ' = true ∧ goIsSpace '\t' = true ∧ goIsSpace '\n' = true ∧
    goIsSpace '\r' = true := by decide

theorem plain_not_special (c : Char) (h : plainLabelChar c) :
    c ≠ ' ' ∧ c ≠ '\t' ∧ c ≠ '\n' ∧ c ≠ '\r' ∧ c ≠ '-' := by
  refine ⟨?_, ?_, ?_, ?_, h.2⟩ <;>
    (intro hc; rw [hc] at h; exact absurd h.1 (by decide))

theorem cleanText_plain (s : List Char) (h : ∀ c ∈ s, plainLabelChar c) :
    cleanText s = s := by
  rw [cleanText, dropWhile_eq_self_of _ _ ?_, trimSpace_plain s
    (fun c hc => (h c hc).1)]
  intro c hc
  have := plain_not_special c (h c hc)
  simp [this.1, this.2.1, this.2.2.2.2]

theorem dropCR_plain (s : List Char) (h : ∀ c ∈ s, goIsSpace c = false) :
    dropCR s = s := by
  rw [dropCR, if_neg]
  intro hl
  have := h '\r' (List.mem_of_getLast?_eq_some hl)
  exact absurd this (by decide)

theorem map_dropCR_id (L : List (List Char))
    (h : ∀ l ∈ L, dropCR l = l) : L.map dropCR = L := by
  induction L with
  | nil => rfl
  | cons l ls ih =>
    rw [List.map_cons, h l (by simp), ih (fun x hx => h x (by simp [hx]))]

theorem goLines_eq (input : List Char) (L : List (List Char))
    (hL : splitNL input = L) (hlast : L.getLast? ≠ some [])
    (hcr : ∀ l ∈ L, dropCR l = l) : goLines input = L := by
  rw [goLines, hL, if_neg hlast, map_dropCR_id L hcr]

theorem detect_no_tab (input : List Char)
    (h : ∀ l ∈ splitNL input, l.head? ≠ some '\t') :
    detectIndentationType input = false := by
  rw [detectIndentationType]
  have h1 : (splitNL input).filter (fun l => l.head? == some '\t') = [] := by
    rw [List.filter_eq_nil_iff]
    intro l hl
    simp [h l hl]
  rw [h1]
  simp

theorem countIndentAux_plain (d : Char) (s : List Char)
    (h : plainLabelChar d) : countIndentAux (d :: s) = 0 := by
  have hd := plain_not_special d h
  rw [countIndentAux, if_neg hd.1, if_neg hd.2.1]

/-- State after a plain (headerless) root line with label `lbl`. -/
def rootState (lbl : List Char) : ParseState :=
  { stack := [0], root := some 0, foundMindmap := false,
    levelLast := fun l => if l = 0 then some 0 else none,
    prevLevel := 0, nodes := [⟨lbl, []⟩] }

/-- State after the root line and one level-one child line. -/
def childState (lbl s : List Char) : ParseState :=
  { stack := [0, 1], root := some 0, foundMindmap := false,
    levelLast := fun l =>
      if l = 1 then some 1 else if l = 0 then some 0 else none,
    prevLevel := 1, nodes := [⟨lbl, [1]⟩, ⟨s, []⟩] }

/-- State after a root line, a level-one line and a level-three line
(an indentation jump across level two). -/
def deepState (lbl b c : List Char) : ParseState :=
  { stack := [0, 1, 2], root := some 0, foundMindmap := false,
    levelLast := fun l =>
      if l = 3 then some 2
      else if l = 1 then some 1 else if l = 0 then some 0 else none,
    prevLevel := 3, nodes := [⟨lbl, [1]⟩, ⟨b, [2]⟩, ⟨c, []⟩] }

theorem processLine_root (s : List Char) (h1 : s ≠ [])
    (h2 : ∀ c ∈ s, plainLabelChar c) (h3 : s ≠ "mindmap".toList) :
    processLine false initState s = rootState (cleanRootText s) := by
  obtain ⟨d, s', rfl⟩ : ∃ d s', s = d :: s' := by
    rcases s with _ | ⟨d, s'⟩
    · exact absurd rfl h1
    · exact ⟨d, s', rfl⟩
  have hts : trimSpace (d :: s') = d :: s' :=
    trimSpace_plain _ (fun c hc => (h2 c hc).1)
  have hct : cleanText (d :: s') = d :: s' := cleanText_plain _ h2
  have hlv : getIndentationLevel false (d :: s') = 0 := by
    rw [getIndentationLevel, if_neg (by simp), countIndentation,
      countIndentAux_plain d s' (h2 d (by simp))]
  simp only [processLine]
  rw [hts, if_neg h3, hct, hlv]
  rfl

theorem processLine_child (lbl s : List Char) (h1 : s ≠ [])
    (h2 : ∀ c ∈ s, plainLabelChar c) (h3 : s ≠ "mindmap".toList) :
    processLine false (rootState lbl) (' ' :: ' ' :: s) = childState lbl s := by
  obtain ⟨d, s', rfl⟩ : ∃ d s', s = d :: s' := by
    rcases s with _ | ⟨d, s'⟩
    · exact absurd rfl h1
    · exact ⟨d, s', rfl⟩
  have hts : trimSpace (' ' :: ' ' :: d :: s') = d :: s' :=
    trimSpace_pre [' ', ' '] _ (by decide) (fun c hc => (h2 c hc).1)
  have hct : cleanText (d :: s') = d :: s' := cleanText_plain _ h2
  have hlv : getIndentationLevel false (' ' :: ' ' :: d :: s') = 1 := by
    rw [getIndentationLevel, if_neg (by simp), countIndentation, countIndentAux,
      if_pos rfl, countIndentAux, if_pos rfl,
      countIndentAux_plain d s' (h2 d (by simp))]
  simp only [processLine]
  rw [hts, if_neg h3, hct, hlv]
  rfl

theorem processLine_deep (lbl b c : List Char) (h1 : c ≠ [])
    (h2 : ∀ x ∈ c, plainLabelChar x) (h3 : c ≠ "mindmap".toList) :
    processLine false (childState lbl b)
      ([' ', ' ', ' ', ' ', ' ', ' '] ++ c) = deepState lbl b c := by
  obtain ⟨d, s', rfl⟩ : ∃ d s', c = d :: s' := by
    rcases c with _ | ⟨d, s'⟩
    · exact absurd rfl h1
    · exact ⟨d, s', rfl⟩
  have hts : trimSpace ([' ', ' ', ' ', ' ', ' ', ' '] ++ d :: s') = d :: s' :=
    trimSpace_pre [' ', ' ', ' ', ' ', ' ', ' '] _ (by decide)
      (fun x hx => (h2 x hx).1)
  have hct : cleanText (d :: s') = d :: s' := cleanText_plain _ h2
  have hlv : getIndentationLevel false
      ([' ', ' ', ' ', ' ', ' ', ' '] ++ d :: s') = 3 := by
    rw [getIndentationLevel, if_neg (by simp)]
    rw [show ([' ', ' ', ' ', ' ', ' ', ' '] ++ d :: s') =
      ' ' :: ' ' :: ' ' :: ' ' :: ' ' :: ' ' :: d :: s' from rfl]
    rw [countIndentation, countIndentAux, if_pos rfl, countIndentAux,
      if_pos rfl, countIndentAux, if_pos rfl, countIndentAux, if_pos rfl,
      countIndentAux, if_pos rfl, countIndentAux, if_pos rfl,
      countIndentAux_plain d s' (h2 d (by simp))]
  simp only [processLine]
  rw [hts, if_neg h3, hct, hlv]
  rfl

theorem dropCR_no_cr (l : List Char) (h : '\r' ∉ l) : dropCR l = l := by
  rw [dropCR, if_neg]
  intro hl
  exact h (List.mem_of_getLast?_eq_some hl)

theorem plain_no_newline (s : List Char) (h : ∀ c ∈ s, plainLabelChar c) :
    '\n' ∉ s := by
  intro hs
  exact absurd (h '\n' hs).1 (by decide)

theorem plain_no_cr (s : List Char) (h : ∀ c ∈ s, plainLabelChar c) :
    '\r' ∉ s := by
  intro hs
  exact absurd (h '\r' hs).1 (by decide)

theorem parse_single_plain (s : List Char) (h1 : s ≠ [])
    (h2 : ∀ c ∈ s, plainLabelChar c) (h3 : s ≠ "mindmap".toList) :
    Parse s = .ok (.node (cleanRootText s) []) := by
  have hnl := plain_no_newline s h2
  have hlines : goLines s = [s] := by
    refine goLines_eq s [s] (splitNL_no_newline s hnl) (by simp [h1]) ?_
    intro l hl
    rcases List.mem_singleton.mp hl with rfl
    exact dropCR_no_cr l (plain_no_cr l h2)
  have hdet : detectIndentationType s = false := by
    refine detect_no_tab s ?_
    intro l hl
    rw [splitNL_no_newline s hnl] at hl
    rcases List.mem_singleton.mp hl with rfl
    rcases l with _ | ⟨d, s'⟩
    · simp
    · have := plain_not_special d (h2 d (by simp))
      simp [this.2.1]
  rw [Parse, hdet, hlines, List.foldl_cons, List.foldl_nil,
    processLine_root s h1 h2 h3]
  rfl

theorem parse_two_plain (s : List Char) (h1 : s ≠ [])
    (h2 : ∀ c ∈ s, plainLabelChar c) (h3 : s ≠ "mindmap".toList) :
    Parse ('x' :: '\n' :: ' ' :: ' ' :: s) =
      .ok (.node ['x'] [.node s []]) := by
  have hnl := plain_no_newline s h2
  have hsplit : splitNL ('x' :: '\n' :: ' ' :: ' ' :: s) =
      [['x'], ' ' :: ' ' :: s] := by
    rw [show ('x' :: '\n' :: ' ' :: ' ' :: s) =
      ['x'] ++ '\n' :: (' ' :: ' ' :: s) from rfl]
    rw [splitNL_append ['x'] _ (by decide),
      splitNL_no_newline _ (by simp [hnl])]
  have hlines : goLines ('x' :: '\n' :: ' ' :: ' ' :: s) =
      [['x'], ' ' :: ' ' :: s] := by
    refine goLines_eq _ _ hsplit (by simp) ?_
    intro l hl
    rcases List.mem_cons.mp hl with rfl | hl
    · exact dropCR_no_cr _ (by decide)
    · rcases List.mem_singleton.mp (by simpa using hl) with rfl
      refine dropCR_no_cr _ ?_
      intro hc
      rcases List.mem_cons.mp hc with h | h
      · exact absurd h (by decide)
      · rcases List.mem_cons.mp h with h | h
        · exact absurd h (by decide)
        · exact plain_no_cr s h2 h
  have hdet : detectIndentationType ('x' :: '\n' :: ' ' :: ' ' :: s) = false := by
    refine detect_no_tab _ ?_
    intro l hl
    rw [hsplit] at hl
    rcases List.mem_cons.mp hl with rfl | hl
    · simp
    · rcases List.mem_singleton.mp (by simpa using hl) with rfl
      simp
  rw [Parse, hdet, hlines, List.foldl_cons, List.foldl_cons, List.foldl_nil,
    processLine_root ['x'] (by simp) (by decide) (by decide),
    show cleanRootText ['x'] = ['x'] from rfl,
    processLine_child ['x'] s h1 h2 h3]
  rfl

/-- C9: for plain indented input with no `mindmap` header the parser
applies the root-bubble special-casing to the depth-zero root line:
the root's label is `cleanRootText` of the line (so a label that merely
begins with the four characters `root` loses that prefix, and a label of
the shape `((...))` after that loses the double parentheses), while the
identical text on a non-root line is kept verbatim. -/
theorem c9_root_special_casing (s : List Char) (h1 : s ≠ [])
    (h2 : ∀ c ∈ s, plainLabelChar c) (h3 : s ≠ "mindmap".toList) :
    Parse s = .ok (.node (cleanRootText s) []) ∧
    Parse ('x' :: '\n' :: ' ' :: ' ' :: s) = .ok (.node ['x'] [.node s []]) ∧
    (s.take 4 = ['r', 'o', 'o', 't'] →
      (hasParensShape (s.drop 4) = false →
        cleanRootText s = s.drop 4) ∧
      (hasParensShape (s.drop 4) = true →
        cleanRootText s = parenInner (s.drop 4))) := by
  refine ⟨parse_single_plain s h1 h2 h3, parse_two_plain s h1 h2 h3, ?_⟩
  intro htake
  have hct : cleanText s = s := cleanText_plain _ h2
  constructor
  · intro hp
    rw [cleanRootText, hct, dropRootTok, if_pos htake, if_neg (by simp [hp])]
    exact trimSpace_plain _ (fun c hc => (h2 c (List.drop_subset 4 s hc)).1)
  · intro hp
    rw [cleanRootText, hct, dropRootTok, if_pos htake, if_pos hp]

/-- C9 witness: the label `rootless` loses its `root` prefix on the root
line (becoming `less`) but is kept verbatim as a child label. -/
theorem c9_root_special_casing_witness :
    Parse ("rootless".toList) = .ok (.node ("less".toList) []) ∧
    Parse ("x\n  rootless".toList) =
      .ok (.node ['x'] [.node ("rootless".toList) []]) := by
  have h := c9_root_special_casing ("rootless".toList) (by decide) (by decide)
    (by decide)
  refine ⟨?_, ?_⟩
  · rw [h.1, (h.2.2 (by decide)).1 (by decide)]
    rfl
  · exact h.2.1

mutual
/-- Whether some node of the tree carries exactly the given label. -/
def OTree.containsLabel : OTree → List Char → Bool
  | .node txt cs, lbl => txt == lbl || containsLabelList cs lbl

/-- Whether some node of some tree in the list carries the label. -/
def containsLabelList : List OTree → List Char → Bool
  | [], _ => false
  | c :: cs, lbl => OTree.containsLabel c lbl || containsLabelList cs lbl
end

/-- C7 counterexample: the outline `R`, `A` at depth three, `B` at depth
two contains a depth jump of more than one level, and the parser does
not reject it — but the line `B` produces no attached node at all: the
resulting tree is just `R` with the single child `A`, and no node is
labeled `B` (depth one was never populated, so `B`'s lookup at depth
minus one fails and the node is silently dropped). -/
theorem c7_counterexample :
    Parse ("R\n      A\n    B".toList) = .ok (.node ['R'] [.node ['A'] []]) ∧
    OTree.containsLabel (.node ['R'] [.node ['A'] []]) ['B'] = false := by
  constructor
  · rfl
  · rfl

theorem parseResult_ok (st : ParseState) : ∃ t, parseResult st = .ok t := by
  rcases hr : st.root with _ | r
  · exact ⟨.node "Root".toList [], by unfold parseResult; rw [hr]⟩
  · exact ⟨toOTree st.nodes st.nodes.length r, by unfold parseResult; rw [hr]⟩

theorem no_cr_spaces_append (pre s : List Char) (hpre : ∀ x ∈ pre, x = ' ')
    (hs : '\r' ∉ s) : '\r' ∉ pre ++ s := by
  intro hx
  rcases List.mem_append.mp hx with h | h
  · exact absurd (hpre _ h) (by decide)
  · exact hs h

theorem parse_three_deep (a b c : List Char)
    (ha1 : a ≠ []) (ha2 : ∀ x ∈ a, plainLabelChar x) (ha3 : a ≠ "mindmap".toList)
    (hb1 : b ≠ []) (hb2 : ∀ x ∈ b, plainLabelChar x) (hb3 : b ≠ "mindmap".toList)
    (hc1 : c ≠ []) (hc2 : ∀ x ∈ c, plainLabelChar x) (hc3 : c ≠ "mindmap".toList) :
    Parse (a ++ '\n' :: ' ' :: ' ' ::
        (b ++ '\n' :: ([' ', ' ', ' ', ' ', ' ', ' '] ++ c))) =
      .ok (.node (cleanRootText a) [.node b [.node c []]]) := by
  have hna := plain_no_newline a ha2
  have hnb := plain_no_newline b hb2
  have hnc := plain_no_newline c hc2
  have hsh : (' ' :: ' ' :: (b ++ '\n' :: ([' ', ' ', ' ', ' ', ' ', ' '] ++ c))) =
      (' ' :: ' ' :: b) ++ '\n' :: ([' ', ' ', ' ', ' ', ' ', ' '] ++ c) := rfl
  have hsplit : splitNL (a ++ '\n' :: ' ' :: ' ' ::
      (b ++ '\n' :: ([' ', ' ', ' ', ' ', ' ', ' '] ++ c))) =
      [a, ' ' :: ' ' :: b, [' ', ' ', ' ', ' ', ' ', ' '] ++ c] := by
    rw [splitNL_append a _ hna, hsh, splitNL_append _ _ (by simp [hnb]),
      splitNL_no_newline _ (by simp [hnc])]
  have hlines : goLines (a ++ '\n' :: ' ' :: ' ' ::
      (b ++ '\n' :: ([' ', ' ', ' ', ' ', ' ', ' '] ++ c))) =
      [a, ' ' :: ' ' :: b, [' ', ' ', ' ', ' ', ' ', ' '] ++ c] := by
    refine goLines_eq _ _ hsplit (by simp) ?_
    intro l hl
    rcases List.mem_cons.mp hl with rfl | hl
    · exact dropCR_no_cr _ (plain_no_cr l ha2)
    · rcases List.mem_cons.mp hl with rfl | hl
      · exact dropCR_no_cr _
          (no_cr_spaces_append [' ', ' '] b (by decide) (plain_no_cr b hb2))
      · rcases List.mem_singleton.mp hl with rfl
        exact dropCR_no_cr _
          (no_cr_spaces_append [' ', ' ', ' ', ' ', ' ', ' '] c (by decide)
            (plain_no_cr c hc2))
  have hdet : detectIndentationType (a ++ '\n' :: ' ' :: ' ' ::
      (b ++ '\n' :: ([' ', ' ', ' ', ' ', ' ', ' '] ++ c))) = false := by
    refine detect_no_tab _ ?_
    intro l hl
    rw [hsplit] at hl
    rcases List.mem_cons.mp hl with rfl | hl
    · rcases hl' : l with _ | ⟨d, s'⟩
      · simp
      · have := plain_not_special d (ha2 d (by rw [hl']; simp))
        simp [this.2.1]
    · rcases List.mem_cons.mp hl with rfl | hl
      · simp
      · rcases List.mem_singleton.mp hl with rfl
        simp
  rw [Parse, hdet, hlines, List.foldl_cons, List.foldl_cons, List.foldl_cons,
    List.foldl_nil, processLine_root a ha1 ha2 ha3,
    processLine_child _ b hb1 hb2 hb3, processLine_deep _ b c hc1 hc2 hc3]
  rfl

/-- C7 (amended): the parser never rejects an input (it always returns a
tree), and a line that jumps deeper by more than one level is attached
under the previous line's node, the nearest recorded shallower ancestor
(here: a root, a level-one child, then a level-three line attached under
the level-one node); however a non-root line whose depth-minus-one level
has no recorded node is silently dropped rather than reattached (see the
counterexample), so not every line produces a node. -/
theorem c7_deep_jump_attach :
    (∀ input : List Char, ∃ t, Parse input = .ok t) ∧
    (∀ a b c : List Char,
      a ≠ [] → (∀ x ∈ a, plainLabelChar x) → a ≠ "mindmap".toList →
      b ≠ [] → (∀ x ∈ b, plainLabelChar x) → b ≠ "mindmap".toList →
      c ≠ [] → (∀ x ∈ c, plainLabelChar x) → c ≠ "mindmap".toList →
      Parse (a ++ '\n' :: ' ' :: ' ' ::
          (b ++ '\n' :: ([' ', ' ', ' ', ' ', ' ', ' '] ++ c))) =
        .ok (.node (cleanRootText a) [.node b [.node c []]])) := by
  constructor
  · intro input
    exact parseResult_ok _
  · intro a b c ha1 ha2 ha3 hb1 hb2 hb3 hc1 hc2 hc3
    exact parse_three_deep a b c ha1 ha2 ha3 hb1 hb2 hb3 hc1 hc2 hc3

/-- C7 witness: the amended theorem applied to the concrete outline
`top`, `mid` at depth one, `leaf` at depth three. -/
theorem c7_deep_jump_attach_witness :
    Parse ("top\n  mid\n      leaf".toList) =
      .ok (.node (cleanRootText "top".toList)
        [.node "mid".toList [.node "leaf".toList []]]) := by
  have h := c7_deep_jump_attach.2 "top".toList "mid".toList "leaf".toList
    (by decide) (by decide) (by decide) (by decide) (by decide) (by decide)
    (by decide) (by decide) (by decide)
  exact h

/-
Theme store embedding (theme manager).
-/

/-- A loaded theme: only its display name is carried here; the visual
fields (colors, node styles, layout constants) do not affect the store
operations under study. -/
structure ThemeConfigE where
  name : List Char
deriving Repr, DecidableEq

/-- Model of the theme `Manager`: its `themes` field is a Go map from id
to configuration.  A Go map is a set of key-value pairs whose iteration
order is unspecified; a state therefore carries the entries in one
arbitrary iteration order. -/
structure Manager where
  themes : List (List Char × ThemeConfigE)
deriving Repr, DecidableEq

instance : Inhabited ThemeConfigE := ⟨⟨[]⟩⟩

/-- Model of `ListThemes`: collect the ids by ranging over the map in
its iteration order (the Go loop `for name := range m.themes`). -/
def ListThemes (m : Manager) : List (List Char) :=
  m.themes.map Prod.fst

/-- Model of `GetTheme`: an exact lookup, then a fallback to the theme
registered under `default`, then an error. -/
def GetTheme (m : Manager) (name : List Char) : Except (List Char) ThemeConfigE :=
  match m.themes.lookup name with
  | some t => .ok t
  | none =>
    match m.themes.lookup ("default".toList) with
    | some t => .ok t
    | none => .error name

/-- Lexicographic (byte-wise) string order, as used by Go's
`sort.Strings`. -/
def idLeb : List Char → List Char → Bool
  | [], _ => true
  | _ :: _, [] => false
  | a :: as, b :: bs => if a = b then idLeb as bs else decide (a < b)

/-- C10 counterexample: a theme store whose map iteration yields id `b`
before id `a` makes `ListThemes` return `[b, a]`, which is not in sorted
order — the function does not sort (its callers that need sorted output
sort the returned slice themselves). -/
theorem c10_counterexample :
    ListThemes ⟨[(['b'], ⟨['B']⟩), (['a'], ⟨['A']⟩)]⟩ = [['b'], ['a']] ∧
    ¬ List.Pairwise (fun x y => idLeb x y = true)
      (ListThemes ⟨[(['b'], ⟨['B']⟩), (['a'], ⟨['A']⟩)]⟩) := by
  constructor
  · rfl
  · decide

/-- C10 (amended): `ListThemes` returns exactly the ids of the loaded
themes — one id per stored entry, and an id is returned precisely when
looking it up in the store succeeds — but in the map's unspecified
iteration order, with no sortedness guarantee. -/
theorem c10_listThemes_ids (m : Manager) :
    (ListThemes m).length = m.themes.length ∧
    ∀ name : List Char,
      name ∈ ListThemes m ↔ ∃ t, m.themes.lookup name = some t := by
  constructor
  · rw [ListThemes, List.length_map]
  · intro name
    rw [ListThemes]
    induction m.themes with
    | nil => simp
    | cons e es ih =>
      rcases e with ⟨k, v⟩
      by_cases hk : name = k
      · have hbeq : (name == k) = true := by simpa using hk
        constructor
        · intro _
          exact ⟨v, by rw [List.lookup, hbeq]⟩
        · intro _
          exact List.mem_cons.mpr (Or.inl hk)
      · have hbeq : (name == k) = false := by simpa using hk
        have hcons : List.lookup name ((k, v) :: es) = List.lookup name es := by
          rw [List.lookup, hbeq]
        rw [List.map_cons, List.mem_cons, hcons]
        constructor
        · rintro (h | h)
          · exact absurd h hk
          · exact ih.mp h
        · intro h
          exact Or.inr (ih.mpr h)
